import Mathlib

/-!
Verification development for the task-list widget in
`src/todo-app/src/app/app.ts`.  The component's data model and operations
are embedded shallowly: tasks are records, the store state is a record of
the task list, the next-id counter, the draft fields and the view
parameters, and every method of the `App` class becomes a pure function
from state to state (with the current time passed explicitly where the
source reads the clock).
-/

namespace Todo

/-- `type Priority = 'low' | 'medium' | 'high'` -/
inductive Priority where
  | low
  | medium
  | high
deriving DecidableEq, Repr

/-- `type Filter = 'all' | 'active' | 'completed'` -/
inductive Filter where
  | all
  | active
  | completed
deriving DecidableEq, Repr

/-- The sort signal's value: `'created' | 'due' | 'priority'`. -/
inductive SortKey where
  | created
  | due
  | priority
deriving DecidableEq, Repr

/-- The `Task` interface.  `dueDate?: string` becomes `Option String`. -/
structure Task where
  id : Nat
  title : String
  notes : String
  priority : Priority
  dueDate : Option String
  completed : Bool
  createdAt : String
deriving DecidableEq, Repr

/-- The draft form state: `{ title, notes, dueDate, priority }`. -/
structure Draft where
  title : String
  notes : String
  dueDate : String
  priority : Priority
deriving DecidableEq, Repr

/-- The draft defaults `{ title: '', notes: '', dueDate: '', priority: 'medium' }`. -/
def defaultDraft : Draft :=
  { title := "", notes := "", dueDate := "", priority := Priority.medium }

/-- The mutable state of the `App` component: the task signal, the private
`#nextId` counter, the draft object and the three view-parameter signals. -/
structure AppState where
  tasks : List Task
  nextId : Nat
  draft : Draft
  filter : Filter
  search : String
  sortKey : SortKey
deriving DecidableEq, Repr

/-- `stats` computed value: total, completed and active counts. -/
def stats (items : List Task) : Nat × Nat × Nat :=
  let completed := (items.filter (fun task => task.completed)).length
  (items.length, completed, items.length - completed)

def statsTotal (items : List Task) : Nat := (stats items).1
def statsCompleted (items : List Task) : Nat := (stats items).2.1
def statsActive (items : List Task) : Nat := (stats items).2.2

/-- The filter stage predicate of `visibleTasks`:
`filter === 'all' || (filter === 'active' && !task.completed) || (filter === 'completed' && task.completed)`. -/
def matchesFilter (filter : Filter) (task : Task) : Bool :=
  filter = Filter.all
    || (filter = Filter.active && !task.completed)
    || (filter = Filter.completed && task.completed)

/-- Whitespace recognizer for `String.prototype.trim` (the characters that
matter for this app's ASCII inputs). -/
def isWs (c : Char) : Bool :=
  c = ' ' || c = '\t' || c = '\n' || c = '\r'

/-- Embedding of `String.prototype.trim`: strip leading and trailing
whitespace. -/
def jsTrim (s : String) : String :=
  String.mk (((s.data.dropWhile isWs).reverse.dropWhile isWs).reverse)

/-- Embedding of `String.prototype.toLowerCase` (ASCII case mapping, which
covers every string this component produces). -/
def jsToLower (s : String) : String :=
  String.mk (s.data.map Char.toLower)

/-- Substring test embedding `String.prototype.includes`: some suffix of
`hay` begins with `pat`. -/
def containsSub (hay pat : String) : Bool :=
  (List.range (hay.data.length + 1)).any
    (fun i => pat.data.isPrefixOf (hay.data.drop i))

/-- The search stage predicate of `visibleTasks`, with `search` already
trimmed and lower-cased:
`!search || task.title.toLowerCase().includes(search) || task.notes.toLowerCase().includes(search)`. -/
def matchesSearch (search : String) (task : Task) : Bool :=
  search = ""
    || containsSub (jsToLower task.title) search
    || containsSub (jsToLower task.notes) search

/-- Lexicographic "less than or equal" on character lists, the order
`localeCompare` computes on this app's ASCII strings. -/
def lexLeChars : List Char → List Char → Bool
  | [], _ => true
  | _ :: _, [] => false
  | a :: as, b :: bs => if a = b then lexLeChars as bs else decide (a < b)

/-- `x.localeCompare(y) <= 0` modelled as lexicographic string comparison. -/
def lexLe (x y : String) : Bool :=
  lexLeChars x.data y.data

/-- The `due` comparator as a boolean "a sorts no later than b" relation:
absent due dates sort after present ones, two present ones compare
lexicographically (`localeCompare`), two absent ones compare equal. -/
def dueLe (a b : Task) : Bool :=
  match a.dueDate, b.dueDate with
  | none, none => true
  | none, some _ => false
  | some _, none => true
  | some x, some y => lexLe x y

/-- `order: { high: 0, medium: 1, low: 2 }` from the `priority` branch. -/
def prioRank : Priority → Nat
  | Priority.high => 0
  | Priority.medium => 1
  | Priority.low => 2

/-- The `priority` comparator: ascending by `prioRank`. -/
def prioLe (a b : Task) : Bool :=
  decide (prioRank a.priority ≤ prioRank b.priority)

/-- The `created` comparator `b.createdAt.localeCompare(a.createdAt)`:
descending by `createdAt`. -/
def createdLe (a b : Task) : Bool :=
  lexLe b.createdAt a.createdAt

/-- Insertion step of a stable sort: place `a` before the first element it
compares no later than. -/
def oInsert (le : Task → Task → Bool) (a : Task) : List Task → List Task
  | [] => [a]
  | b :: l => if le a b then a :: b :: l else b :: oInsert le a l

/-- Stable sort embedding `Array.prototype.sort` (which ECMAScript requires
to be stable) with comparator-induced relation `le`. -/
def stableSort (le : Task → Task → Bool) : List Task → List Task
  | [] => []
  | a :: l => oInsert le a (stableSort le l)

/-- The filter-and-search stage of `visibleTasks`: the search signal value
is trimmed and lower-cased once, then both predicates are conjoined. -/
def filterStage (f : Filter) (q : String) (tasks : List Task) : List Task :=
  tasks.filter (fun task =>
    matchesFilter f task && matchesSearch (jsToLower (jsTrim q)) task)

/-- The `visibleTasks` computed value: filter stage, search stage, then the
stable sort selected by the sort key. -/
def visibleTasks (f : Filter) (q : String) (sortKey : SortKey)
    (tasks : List Task) : List Task :=
  match sortKey with
  | SortKey.due => stableSort dueLe (filterStage f q tasks)
  | SortKey.priority => stableSort prioLe (filterStage f q tasks)
  | SortKey.created => stableSort createdLe (filterStage f q tasks)

/-- The task record built by `addTask` from the draft (`now` is the clock
reading `new Date().toISOString()`). -/
def draftTask (now : String) (s : AppState) : Task :=
  { id := s.nextId
    title := jsTrim s.draft.title
    notes := jsTrim s.draft.notes
    priority := s.draft.priority
    dueDate := if s.draft.dueDate = "" then none else some s.draft.dueDate
    completed := false
    createdAt := now }

/-- `addTask` with the clock reading passed in as `now`.  When the trimmed
draft title is empty the method returns early (no task, no reset);
otherwise it appends the new task, bumps the counter and resets the draft. -/
def addTask (now : String) (s : AppState) : AppState :=
  if jsTrim s.draft.title = "" then s
  else
    { s with
        tasks := s.tasks ++ [draftTask now s]
        nextId := s.nextId + 1
        draft := defaultDraft }

/-- The list transformation inside `toggleCompletion`. -/
def toggleList (taskId : Nat) (tasks : List Task) : List Task :=
  tasks.map (fun task =>
    if task.id = taskId then { task with completed := !task.completed } else task)

/-- `toggleCompletion(taskId)`. -/
def toggleCompletion (taskId : Nat) (s : AppState) : AppState :=
  { s with tasks := toggleList taskId s.tasks }

/-- `removeTask(taskId)`. -/
def removeTask (taskId : Nat) (s : AppState) : AppState :=
  { s with tasks := s.tasks.filter (fun task => task.id ≠ taskId) }

/-- `updateFilter(filter)`. -/
def updateFilter (f : Filter) (s : AppState) : AppState := { s with filter := f }

/-- `updateSort(sort)`. -/
def updateSort (k : SortKey) (s : AppState) : AppState := { s with sortKey := k }

/-- `search.set(value)` from `onSearchChange`. -/
def updateSearch (v : String) (s : AppState) : AppState := { s with search := v }

/-- Two-way form binding: the template may overwrite the draft fields. -/
def setDraft (d : Draft) (s : AppState) : AppState := { s with draft := d }

/-- The list transformation inside `clearCompleted`. -/
def clearCompletedList (tasks : List Task) : List Task :=
  tasks.filter (fun task => !task.completed)

/-- `clearCompleted()`. -/
def clearCompleted (s : AppState) : AppState :=
  { s with tasks := clearCompletedList s.tasks }

/-- The list transformation inside `completeAll`. -/
def completeAllList (tasks : List Task) : List Task :=
  tasks.map (fun task => { task with completed := true })

/-- `completeAll()`. -/
def completeAll (s : AppState) : AppState :=
  { s with tasks := completeAllList s.tasks }

/-- The seeded initial state: three fixed example tasks (ids 1..3, the
clock-derived strings passed in), `#nextId = 4`, default draft and view
parameters `all` / `""` / `created`. -/
def seedState (c1 d1 c2 c3 d3 : String) : AppState :=
  { tasks :=
      [ { id := 1, title := "Draft weekly sprint goals"
          notes := "Share with the team in the Monday stand-up."
          priority := Priority.high, dueDate := some d1
          completed := false, createdAt := c1 }
      , { id := 2, title := "Review pull requests"
          notes := "Focus on the UI polish tasks before the release."
          priority := Priority.medium, dueDate := none
          completed := true, createdAt := c2 }
      , { id := 3, title := "Plan usability testing session"
          notes := "Collect feedback questions and invite participants."
          priority := Priority.low, dueDate := some d3
          completed := false, createdAt := c3 } ]
    nextId := 4
    draft := defaultDraft
    filter := Filter.all
    search := ""
    sortKey := SortKey.created }

/-- One UI-driven operation of the component. -/
inductive Step : AppState → AppState → Prop
  | add (now : String) (s : AppState) : Step s (addTask now s)
  | toggle (i : Nat) (s : AppState) : Step s (toggleCompletion i s)
  | remove (i : Nat) (s : AppState) : Step s (removeTask i s)
  | clear (s : AppState) : Step s (clearCompleted s)
  | completeEvery (s : AppState) : Step s (completeAll s)
  | setFilter (f : Filter) (s : AppState) : Step s (updateFilter f s)
  | setSort (k : SortKey) (s : AppState) : Step s (updateSort k s)
  | setSearch (v : String) (s : AppState) : Step s (updateSearch v s)
  | draft (d : Draft) (s : AppState) : Step s (setDraft d s)

/-- States reachable from `s0` by any sequence of operations. -/
inductive Reachable (s0 : AppState) : AppState → Prop
  | refl : Reachable s0 s0
  | step {s s' : AppState} : Reachable s0 s → Step s s' → Reachable s0 s'

/-- Shorthand for building concrete tasks in test inputs. -/
def mkTask (i : Nat) (ti no : String) (p : Priority) (d : Option String)
    (c : Bool) (cr : String) : Task :=
  { id := i, title := ti, notes := no, priority := p, dueDate := d,
    completed := c, createdAt := cr }

/-- Concrete task with due date `"2099-01-01"`. -/
def due99 : Task := mkTask 1 "far" "" Priority.medium (some "2099-01-01") false "t1"

/-- Concrete task with due date `"2024-01-01"`. -/
def due24 : Task := mkTask 2 "near" "" Priority.medium (some "2024-01-01") false "t2"

/-- Concrete task with no due date. -/
def dueAbsent : Task := mkTask 3 "open" "" Priority.medium none false "t3"

def prioA : Task := mkTask 1 "A" "" Priority.low none false "t1"
def prioB : Task := mkTask 2 "B" "" Priority.high none false "t2"
def prioC : Task := mkTask 3 "C" "" Priority.high none false "t3"
def prioD : Task := mkTask 4 "D" "" Priority.medium none false "t4"

def searchTaskA : Task :=
  mkTask 1 "Draft weekly sprint goals" "Share with the team in the Monday stand-up."
    Priority.high (some "2024-05-03") false "2024-05-02T10:00:00.000Z"

def searchTaskB : Task :=
  mkTask 2 "Review pull requests" "Focus on the UI polish tasks before the release."
    Priority.medium none false "2024-04-30T10:00:00.000Z"

/-- A state whose draft has a whitespace-only title but non-default notes,
due date and priority. -/
def emptyTitleState : AppState :=
  { tasks := []
    nextId := 4
    draft := { title := "   ", notes := "keep me", dueDate := "2025-01-01",
               priority := Priority.high }
    filter := Filter.all
    search := ""
    sortKey := SortKey.created }

/-- A state whose draft has a non-empty (after trimming) title and a
non-ISO due-date string. -/
def goodDraftState : AppState :=
  { tasks := [mkTask 1 "x" "" Priority.low none false "t0"]
    nextId := 7
    draft := { title := "  Buy milk  ", notes := " soon ", dueDate := "not-a-date",
               priority := Priority.low }
    filter := Filter.all
    search := ""
    sortKey := SortKey.created }

/-- A concrete two-task state used to instantiate the toggle theorem. -/
def toggleState : AppState :=
  { tasks := [mkTask 1 "a" "" Priority.low none true "t1",
              mkTask 2 "b" "" Priority.high none false "t2"]
    nextId := 3
    draft := defaultDraft
    filter := Filter.all
    search := ""
    sortKey := SortKey.created }

/-- The invariant of the id allocator: every stored id is below the counter
and the stored ids are pairwise distinct. -/
def IdInv (s : AppState) : Prop :=
  (∀ t ∈ s.tasks, t.id < s.nextId) ∧ (s.tasks.map Task.id).Nodup

theorem oInsert_perm (le : Task → Task → Bool) (a : Task) (l : List Task) :
    List.Perm (oInsert le a l) (a :: l) := by
  induction l with
  | nil => simp [oInsert]
  | cons b l ih =>
    simp only [oInsert]
    by_cases h : le a b = true
    · rw [if_pos h]
    · rw [if_neg h]
      exact (ih.cons b).trans (List.Perm.swap a b l)

theorem stableSort_perm (le : Task → Task → Bool) (l : List Task) :
    List.Perm (stableSort le l) l := by
  induction l with
  | nil => simp [stableSort]
  | cons a l ih => exact (oInsert_perm le a _).trans (ih.cons a)

theorem mem_oInsert (le : Task → Task → Bool) (a b : Task) (l : List Task) :
    b ∈ oInsert le a l ↔ b = a ∨ b ∈ l := by
  rw [(oInsert_perm le a l).mem_iff, List.mem_cons]

theorem pairwise_oInsert (le : Task → Task → Bool)
    (htotal : ∀ x y, le x y = true ∨ le y x = true)
    (htrans : ∀ x y z, le x y = true → le y z = true → le x z = true)
    (a : Task) (l : List Task) (h : l.Pairwise (fun x y => le x y = true)) :
    (oInsert le a l).Pairwise (fun x y => le x y = true) := by
  induction l with
  | nil => simp [oInsert]
  | cons b l ih =>
    rcases List.pairwise_cons.1 h with ⟨hb, hl⟩
    simp only [oInsert]
    by_cases hab : le a b = true
    · rw [if_pos hab]
      refine List.pairwise_cons.2 ⟨?_, h⟩
      intro c hc
      rcases List.mem_cons.1 hc with rfl | hc
      · exact hab
      · exact htrans a b c hab (hb c hc)
    · rw [if_neg hab]
      refine List.pairwise_cons.2 ⟨?_, ih hl⟩
      intro c hc
      rcases (mem_oInsert le a c l).1 hc with hca | hc
      · rw [hca]
        rcases htotal a b with h' | h'
        · exact absurd h' hab
        · exact h'
      · exact hb c hc

theorem pairwise_stableSort (le : Task → Task → Bool)
    (htotal : ∀ x y, le x y = true ∨ le y x = true)
    (htrans : ∀ x y z, le x y = true → le y z = true → le x z = true)
    (l : List Task) :
    (stableSort le l).Pairwise (fun x y => le x y = true) := by
  induction l with
  | nil => simp [stableSort]
  | cons a l ih => exact pairwise_oInsert le htotal htrans a _ ih

theorem filter_oInsert_pos (le : Task → Task → Bool) (p : Task → Bool) (a : Task)
    (hpa : p a = true) (hle : ∀ b, p b = true → le a b = true) (l : List Task) :
    (oInsert le a l).filter p = a :: l.filter p := by
  induction l with
  | nil => simp [oInsert, hpa]
  | cons b l ih =>
    simp only [oInsert]
    by_cases hab : le a b = true
    · rw [if_pos hab, List.filter_cons_of_pos hpa]
    · rw [if_neg hab]
      have hpb : p b = false := by
        cases hpb' : p b
        · rfl
        · exact absurd (hle b hpb') hab
      rw [List.filter_cons_of_neg (by simp [hpb]), ih,
        List.filter_cons_of_neg (by simp [hpb])]

theorem filter_oInsert_neg (le : Task → Task → Bool) (p : Task → Bool) (a : Task)
    (hpa : p a = false) (l : List Task) :
    (oInsert le a l).filter p = l.filter p := by
  induction l with
  | nil => simp [oInsert, hpa]
  | cons b l ih =>
    simp only [oInsert]
    by_cases hab : le a b = true
    · rw [if_pos hab, List.filter_cons_of_neg (by simp [hpa])]
    · rw [if_neg hab]
      by_cases hpb : p b = true
      · rw [List.filter_cons_of_pos hpb, ih, List.filter_cons_of_pos hpb]
      · rw [List.filter_cons_of_neg hpb, ih,
          List.filter_cons_of_neg hpb]

theorem filter_stableSort {κ : Type} [DecidableEq κ] (le : Task → Task → Bool)
    (k : Task → κ) (hk : ∀ a b, k a = k b → le a b = true) (v : κ) (l : List Task) :
    (stableSort le l).filter (fun b => decide (k b = v))
      = l.filter (fun b => decide (k b = v)) := by
  induction l with
  | nil => rfl
  | cons a l ih =>
    simp only [stableSort]
    by_cases hv : k a = v
    · have h1 : (fun b => decide (k b = v)) a = true := by simp [hv]
      have h2 : ∀ b, (fun b => decide (k b = v)) b = true → le a b = true := by
        intro b hb
        exact hk a b (by rw [hv, of_decide_eq_true hb])
      rw [filter_oInsert_pos le _ a h1 h2, ih]
      exact (List.filter_cons_of_pos (p := fun b => decide (k b = v)) h1).symm
    · have h1 : (fun b => decide (k b = v)) a = false := by simp [hv]
      rw [filter_oInsert_neg le _ a h1, ih]
      exact (List.filter_cons_of_neg (p := fun b => decide (k b = v)) (by simp [hv])).symm

theorem lexLeChars_refl (l : List Char) : lexLeChars l l = true := by
  induction l with
  | nil => rfl
  | cons a l ih => simp [lexLeChars, ih]

theorem lexLeChars_total (x y : List Char) :
    lexLeChars x y = true ∨ lexLeChars y x = true := by
  induction x generalizing y with
  | nil => exact Or.inl rfl
  | cons a as ih =>
    cases y with
    | nil => exact Or.inr rfl
    | cons b bs =>
      by_cases hab : a = b
      · subst hab
        simpa [lexLeChars] using ih bs
      · rcases lt_or_gt_of_ne hab with h | h
        · left
          simp [lexLeChars, hab, h]
        · right
          simp [lexLeChars, Ne.symm hab, h]

theorem lexLeChars_trans (x y z : List Char) (h1 : lexLeChars x y = true)
    (h2 : lexLeChars y z = true) : lexLeChars x z = true := by
  induction x generalizing y z with
  | nil => rfl
  | cons a as ih =>
    cases y with
    | nil => simp [lexLeChars] at h1
    | cons b bs =>
      cases z with
      | nil => simp [lexLeChars] at h2
      | cons c cs =>
        by_cases hab : a = b
        · subst hab
          by_cases hbc : a = c
          · subst hbc
            simp only [lexLeChars, if_pos rfl] at h1 h2 ⊢
            exact ih bs cs h1 h2
          · simp only [lexLeChars, if_pos rfl] at h1
            simp only [lexLeChars, if_neg hbc] at h2 ⊢
            exact h2
        · by_cases hbc : b = c
          · subst hbc
            simp only [lexLeChars, if_neg hab] at h1 ⊢
            exact h1
          · simp only [lexLeChars, if_neg hab] at h1
            simp only [lexLeChars, if_neg hbc] at h2
            have hlt : a < c := lt_trans (of_decide_eq_true h1) (of_decide_eq_true h2)
            simp only [lexLeChars, if_neg (ne_of_lt hlt)]
            exact decide_eq_true hlt

theorem lexLe_refl (x : String) : lexLe x x = true :=
  lexLeChars_refl x.data

theorem lexLe_total (x y : String) : lexLe x y = true ∨ lexLe y x = true :=
  lexLeChars_total x.data y.data

theorem lexLe_trans (x y z : String) (h1 : lexLe x y = true)
    (h2 : lexLe y z = true) : lexLe x z = true :=
  lexLeChars_trans x.data y.data z.data h1 h2

theorem dueLe_of_eq (a b : Task) (h : a.dueDate = b.dueDate) : dueLe a b = true := by
  unfold dueLe
  rw [h]
  cases b.dueDate with
  | none => rfl
  | some x => exact lexLe_refl x

theorem dueLe_total (a b : Task) : dueLe a b = true ∨ dueLe b a = true := by
  unfold dueLe
  cases a.dueDate with
  | none => cases b.dueDate <;> simp
  | some x =>
    cases b.dueDate with
    | none => simp
    | some y => exact lexLe_total x y

theorem dueLe_trans (a b c : Task) (h1 : dueLe a b = true) (h2 : dueLe b c = true) :
    dueLe a c = true := by
  unfold dueLe at h1 h2 ⊢
  cases ha : a.dueDate with
  | none =>
    rw [ha] at h1
    cases hb : b.dueDate with
    | none =>
      rw [hb] at h2
      cases hc : c.dueDate with
      | none => rfl
      | some z => rw [hc] at h2; exact absurd h2 (by simp)
    | some y => rw [hb] at h1; exact absurd h1 (by simp)
  | some x =>
    rw [ha] at h1
    cases hc : c.dueDate with
    | none => rfl
    | some z =>
      rw [hc] at h2
      cases hb : b.dueDate with
      | none => rw [hb] at h2; exact absurd h2 (by simp)
      | some y =>
        rw [hb] at h1 h2
        exact lexLe_trans x y z h1 h2

theorem prioLe_of_eq (a b : Task) (h : a.priority = b.priority) : prioLe a b = true := by
  simp [prioLe, h]

theorem prioLe_total (a b : Task) : prioLe a b = true ∨ prioLe b a = true := by
  simpa [prioLe] using Nat.le_total (prioRank a.priority) (prioRank b.priority)

theorem prioLe_trans (a b c : Task) (h1 : prioLe a b = true) (h2 : prioLe b c = true) :
    prioLe a c = true := by
  simp only [prioLe, decide_eq_true_eq] at h1 h2 ⊢
  exact le_trans h1 h2

theorem createdLe_of_eq (a b : Task) (h : a.createdAt = b.createdAt) :
    createdLe a b = true := by
  unfold createdLe
  rw [h]
  exact lexLe_refl b.createdAt

theorem createdLe_total (a b : Task) : createdLe a b = true ∨ createdLe b a = true :=
  lexLe_total b.createdAt a.createdAt

theorem createdLe_trans (a b c : Task) (h1 : createdLe a b = true)
    (h2 : createdLe b c = true) : createdLe a c = true :=
  lexLe_trans c.createdAt b.createdAt a.createdAt h2 h1

/-- C1, counterexample: under the `due` sort the code orders due dates
ascending, so the task with dueDate `"2099-01-01"` comes AFTER the task
with dueDate `"2024-01-01"`, not before it as the claim states: on the
concrete input `[due99, due24]` the visible list is `[due24, due99]`. -/
theorem due_sort_counter_C1 :
    visibleTasks Filter.all "" SortKey.due [due99, due24] = [due24, due99]
      ∧ due99 ≠ due24 := by
  constructor
  · decide
  · decide

/-- C1 (amended): when the sort key is `due`, the visible list is ordered by
the due comparator — so every task with a due date precedes every task
without one, tasks with due dates are ascending lexicographically (a
`"2024-01-01"` task before a `"2099-01-01"` task, and that one before any
task with no due date) — and tasks sharing a due date value (in particular
two tasks that both have none) retain their original relative order; on the
concrete input `[due99, dueAbsent, due24]` the visible list is
`[due24, due99, dueAbsent]`. -/
theorem due_sort_order_stable_C1 (f : Filter) (q : String) (tasks : List Task) :
    (visibleTasks f q SortKey.due tasks).Pairwise (fun a b => dueLe a b = true)
      ∧ (∀ d : Option String,
          (visibleTasks f q SortKey.due tasks).filter (fun t => decide (t.dueDate = d))
            = (filterStage f q tasks).filter (fun t => decide (t.dueDate = d)))
      ∧ visibleTasks Filter.all "" SortKey.due [due99, dueAbsent, due24]
          = [due24, due99, dueAbsent] := by
  refine ⟨?_, ?_, ?_⟩
  · exact pairwise_stableSort dueLe dueLe_total dueLe_trans _
  · intro d
    exact filter_stableSort dueLe Task.dueDate dueLe_of_eq d _
  · decide

/-- C7: when the sort key is `priority`, the visible list is ordered
ascending by rank (`high = 0`, `medium = 1`, `low = 2`), equal-priority
tasks keep their pre-sort relative order, and on the concrete stored order
`[A:low, B:high, C:high, D:medium]` the result is `[B, C, D, A]`. -/
theorem priority_sort_order_stable_C7 (f : Filter) (q : String) (tasks : List Task) :
    (visibleTasks f q SortKey.priority tasks).Pairwise
        (fun a b => prioRank a.priority ≤ prioRank b.priority)
      ∧ (∀ p : Priority,
          (visibleTasks f q SortKey.priority tasks).filter (fun t => decide (t.priority = p))
            = (filterStage f q tasks).filter (fun t => decide (t.priority = p)))
      ∧ visibleTasks Filter.all "" SortKey.priority [prioA, prioB, prioC, prioD]
          = [prioB, prioC, prioD, prioA] := by
  refine ⟨?_, ?_, ?_⟩
  · exact (pairwise_stableSort prioLe prioLe_total prioLe_trans _).imp
      (fun h => by simpa [prioLe] using h)
  · intro p
    exact filter_stableSort prioLe Task.priority prioLe_of_eq p _
  · decide

/-- C2, counterexample: committing a draft whose trimmed title is empty does
NOT reset the draft fields — `addTask` returns before the reset, so on
`emptyTitleState` (whitespace-only title, notes "keep me", due date
"2025-01-01", high priority) the draft is left unchanged and differs from
the defaults. -/
theorem add_empty_keeps_draft_counter_C2 :
    (addTask "2024-06-01T00:00:00.000Z" emptyTitleState).draft = emptyTitleState.draft
      ∧ emptyTitleState.draft ≠ defaultDraft := by
  constructor
  · decide
  · decide

/-- C2 (amended): committing the draft when the trimmed title is empty is a
complete no-op — no task is created and the draft fields keep the values the
user typed; the reset to `{title:'', notes:'', dueDate:'', priority:medium}`
happens exactly when a task is actually added. -/
theorem add_reset_behavior_C2 (now : String) (s : AppState) :
    (jsTrim s.draft.title = "" → addTask now s = s)
      ∧ (jsTrim s.draft.title ≠ "" → (addTask now s).draft = defaultDraft) := by
  constructor
  · intro h
    simp [addTask, h]
  · intro h
    simp [addTask, h]

theorem add_reset_behavior_witness_C2 :
    addTask "t" emptyTitleState = emptyTitleState
      ∧ (addTask "t" goodDraftState).draft = defaultDraft :=
  ⟨(add_reset_behavior_C2 "t" emptyTitleState).1 (by decide),
   (add_reset_behavior_C2 "t" goodDraftState).2 (by decide)⟩

/-- C3: for a draft whose trimmed title is non-empty, `addTask` appends
exactly one task at the end of the store — completed `false`, title and
notes trimmed, due date absent exactly when the input string is empty, id
the next counter value — the counter is bumped and `total` grows by exactly
one; for an empty trimmed title the whole state (collection and `total`
included) is unchanged. -/
theorem addTask_spec_C3 (now : String) (s : AppState) :
    (jsTrim s.draft.title ≠ "" →
        (addTask now s).tasks = s.tasks ++
            [{ id := s.nextId
               title := jsTrim s.draft.title
               notes := jsTrim s.draft.notes
               priority := s.draft.priority
               dueDate := if s.draft.dueDate = "" then none else some s.draft.dueDate
               completed := false
               createdAt := now }]
          ∧ (addTask now s).nextId = s.nextId + 1
          ∧ statsTotal (addTask now s).tasks = statsTotal s.tasks + 1)
      ∧ (jsTrim s.draft.title = "" → addTask now s = s) := by
  constructor
  · intro h
    refine ⟨?_, ?_, ?_⟩
    · simp [addTask, h, draftTask]
    · simp [addTask, h]
    · simp [addTask, h, statsTotal, stats]
  · intro h
    simp [addTask, h]

theorem addTask_spec_witness_C3 :
    (addTask "T" goodDraftState).tasks = goodDraftState.tasks ++
        [{ id := 7, title := "Buy milk", notes := "soon", priority := Priority.low,
           dueDate := some "not-a-date", completed := false, createdAt := "T" }]
      ∧ addTask "T" emptyTitleState = emptyTitleState := by
  constructor
  · rw [((addTask_spec_C3 "T" goodDraftState).1 (by decide)).1]
    decide
  · exact (addTask_spec_C3 "T" emptyTitleState).2 (by decide)

/-- C9: `addTask` performs no format validation of the due-date input —
whenever a task is created its stored `dueDate` is absent exactly when the
draft's due-date string is empty, and otherwise is that string verbatim
(whatever it contains). -/
theorem dueDate_verbatim_C9 (now : String) (s : AppState)
    (h : jsTrim s.draft.title ≠ "") :
    ((addTask now s).tasks.getLast?).map Task.dueDate
      = some (if s.draft.dueDate = "" then none else some s.draft.dueDate) := by
  simp [addTask, h, draftTask]

theorem dueDate_verbatim_witness_C9 :
    ((addTask "T2" goodDraftState).tasks.getLast?).map Task.dueDate
        = some (if goodDraftState.draft.dueDate = "" then none
                else some goodDraftState.draft.dueDate)
      ∧ (if goodDraftState.draft.dueDate = "" then none
          else some goodDraftState.draft.dueDate) = some "not-a-date" :=
  ⟨dueDate_verbatim_C9 "T2" goodDraftState (by decide), by decide⟩

/-- C4: in every state reachable from the seeded store, the derived stats
satisfy `active + completed = total`. -/
theorem stats_invariant_C4 (c1 d1 c2 c3 d3 : String) (s : AppState)
    (_hr : Reachable (seedState c1 d1 c2 c3 d3) s) :
    statsActive s.tasks + statsCompleted s.tasks = statsTotal s.tasks := by
  have h : (s.tasks.filter (fun t => t.completed)).length ≤ s.tasks.length :=
    List.length_filter_le _ _
  show s.tasks.length - (s.tasks.filter (fun t => t.completed)).length
      + (s.tasks.filter (fun t => t.completed)).length = s.tasks.length
  omega

theorem stats_invariant_witness_C4 :
    statsActive (seedState "a" "b" "c" "d" "e").tasks
        + statsCompleted (seedState "a" "b" "c" "d" "e").tasks
      = statsTotal (seedState "a" "b" "c" "d" "e").tasks :=
  stats_invariant_C4 "a" "b" "c" "d" "e" _ Reachable.refl

/-- C5: applying `toggleCompletion` with the same id twice restores the
whole state — the target task's `completed` flag returns to its original
value and every other task is unchanged by value — and toggling an id not
present in the list leaves the collection unchanged (silent no-op). -/
theorem toggle_twice_C5 (i : Nat) (s : AppState) :
    toggleCompletion i (toggleCompletion i s) = s
      ∧ ((∀ t ∈ s.tasks, t.id ≠ i) → toggleCompletion i s = s) := by
  have hmap : ∀ l : List Task, toggleList i (toggleList i l) = l := by
    intro l
    induction l with
    | nil => rfl
    | cons t l ih =>
      show (fun task => if task.id = i then { task with completed := !task.completed }
              else task)
            ((fun task => if task.id = i then { task with completed := !task.completed }
              else task) t)
          :: toggleList i (toggleList i l) = t :: l
      rw [ih]
      obtain ⟨tid, tti, tno, tpr, tdu, tco, tcr⟩ := t
      by_cases h : tid = i
      · simp [h]
      · simp [h]
  have hnoop : ∀ l : List Task, (∀ t ∈ l, t.id ≠ i) → toggleList i l = l := by
    intro l
    induction l with
    | nil => intro _; rfl
    | cons t l ih =>
      intro h
      have ih' := ih (fun u hu => h u (List.mem_cons_of_mem t hu))
      show (if t.id = i then { t with completed := !t.completed } else t)
          :: toggleList i l = t :: l
      rw [if_neg (h t (List.mem_cons_self t l)), ih']
  constructor
  · show { s with tasks := toggleList i (toggleList i s.tasks) } = s
    rw [hmap]
  · intro h
    show { s with tasks := toggleList i s.tasks } = s
    rw [hnoop s.tasks h]

theorem toggle_twice_witness_C5 :
    toggleCompletion 1 (toggleCompletion 1 toggleState) = toggleState
      ∧ toggleCompletion 9 toggleState = toggleState :=
  ⟨(toggle_twice_C5 1 toggleState).1, (toggle_twice_C5 9 toggleState).2 (by decide)⟩

theorem clearCompletedList_completeAllList (l : List Task) :
    clearCompletedList (completeAllList l) = [] := by
  induction l with
  | nil => rfl
  | cons t l ih =>
    show List.filter (fun task => !task.completed)
        ({ t with completed := true } :: completeAllList l) = []
    rw [List.filter_cons_of_neg (by simp)]
    exact ih

/-- C10: `completeAll()` marks every task completed while changing no other
field, so a following `clearCompleted()` removes every task: the store is
left empty. -/
theorem completeAll_then_clear_empty_C10 (s : AppState) :
    (clearCompleted (completeAll s)).tasks = []
      ∧ (∀ t ∈ (completeAll s).tasks, t.completed = true)
      ∧ (completeAll s).tasks.map
            (fun t => (t.id, t.title, t.notes, t.priority, t.dueDate, t.createdAt))
          = s.tasks.map
            (fun t => (t.id, t.title, t.notes, t.priority, t.dueDate, t.createdAt)) := by
  refine ⟨?_, ?_, ?_⟩
  · exact clearCompletedList_completeAllList s.tasks
  · intro t ht
    rcases List.mem_map.1 ht with ⟨u, _, rfl⟩
    rfl
  · show (s.tasks.map (fun task => { task with completed := true })).map
        (fun t => (t.id, t.title, t.notes, t.priority, t.dueDate, t.createdAt))
      = _
    rw [List.map_map]
    rfl

/-- C8: a task occurs in the visible list exactly when it is in the store,
passes the active filter, and — when the trimmed lower-cased search text is
non-empty — its lower-cased title or notes contains that text as a
substring (an empty search keeps all); concretely, over the titles "Draft
weekly sprint goals" and "Review pull requests", searching "pull" yields
exactly the second task. -/
theorem search_filter_C8 (f : Filter) (q : String) (k : SortKey)
    (tasks : List Task) (t : Task) :
    (t ∈ visibleTasks f q k tasks ↔
        t ∈ tasks ∧ matchesFilter f t = true ∧
          (jsToLower (jsTrim q) = ""
            ∨ containsSub (jsToLower t.title) (jsToLower (jsTrim q)) = true
            ∨ containsSub (jsToLower t.notes) (jsToLower (jsTrim q)) = true))
      ∧ visibleTasks Filter.all "pull" SortKey.created [searchTaskA, searchTaskB]
          = [searchTaskB] := by
  constructor
  · have hperm : t ∈ visibleTasks f q k tasks ↔ t ∈ filterStage f q tasks := by
      cases k
      · exact (stableSort_perm createdLe _).mem_iff
      · exact (stableSort_perm dueLe _).mem_iff
      · exact (stableSort_perm prioLe _).mem_iff
    rw [hperm]
    unfold filterStage matchesSearch
    rw [List.mem_filter]
    simp [and_assoc, or_assoc]
  · decide

theorem idsOf_toggleList (i : Nat) (l : List Task) :
    (toggleList i l).map Task.id = l.map Task.id := by
  unfold toggleList
  rw [List.map_map]
  apply List.map_congr_left
  intro t _
  by_cases h : t.id = i
  · simp [h]
  · simp [h]

theorem idsOf_completeAllList (l : List Task) :
    (completeAllList l).map Task.id = l.map Task.id := by
  unfold completeAllList
  rw [List.map_map]
  apply List.map_congr_left
  intro t _
  rfl

theorem idInv_addTask (now : String) (s : AppState) (h : IdInv s) :
    IdInv (addTask now s) := by
  obtain ⟨hlt, hnd⟩ := h
  unfold addTask
  by_cases ht : jsTrim s.draft.title = ""
  · rw [if_pos ht]
    exact ⟨hlt, hnd⟩
  · rw [if_neg ht]
    constructor
    · intro t htm
      rcases List.mem_append.1 htm with hm | hm
      · exact Nat.lt_succ_of_lt (hlt t hm)
      · rw [List.mem_singleton.1 hm]
        exact Nat.lt_succ_self _
    · show ((s.tasks ++ [draftTask now s]).map Task.id).Nodup
      rw [List.map_append]
      refine List.Nodup.append hnd (List.nodup_singleton _) ?_
      intro a ha hb
      rcases List.mem_map.1 ha with ⟨t, htm, rfl⟩
      have h1 : t.id < s.nextId := hlt t htm
      have h2 : t.id = s.nextId := by
        simpa [draftTask] using hb
      omega

theorem idInv_toggle (i : Nat) (s : AppState) (h : IdInv s) :
    IdInv (toggleCompletion i s) := by
  obtain ⟨hlt, hnd⟩ := h
  constructor
  · intro t htm
    rcases List.mem_map.1 htm with ⟨u, hu, rfl⟩
    have hid : ((fun task => if task.id = i
        then { task with completed := !task.completed } else task) u).id = u.id := by
      by_cases hui : u.id = i
      · simp [hui]
      · simp [hui]
    rw [hid]
    exact hlt u hu
  · show ((toggleList i s.tasks).map Task.id).Nodup
    rw [idsOf_toggleList]
    exact hnd

theorem idInv_filterTasks (p : Task → Bool) (s : AppState) (h : IdInv s) :
    IdInv { s with tasks := s.tasks.filter p } := by
  obtain ⟨hlt, hnd⟩ := h
  constructor
  · intro t htm
    exact hlt t (List.mem_of_mem_filter htm)
  · exact List.Nodup.sublist (List.Sublist.map Task.id (List.filter_sublist _)) hnd

theorem idInv_completeAll (s : AppState) (h : IdInv s) : IdInv (completeAll s) := by
  obtain ⟨hlt, hnd⟩ := h
  constructor
  · intro t htm
    rcases List.mem_map.1 htm with ⟨u, hu, rfl⟩
    exact hlt u hu
  · show ((completeAllList s.tasks).map Task.id).Nodup
    rw [idsOf_completeAllList]
    exact hnd

theorem idInv_stepPres {s s' : AppState} (h : IdInv s) (st : Step s s') : IdInv s' := by
  cases st with
  | add now => exact idInv_addTask now s h
  | toggle i => exact idInv_toggle i s h
  | remove i => exact idInv_filterTasks _ s h
  | clear => exact idInv_filterTasks _ s h
  | completeEvery => exact idInv_completeAll s h
  | setFilter f => exact h
  | setSort k => exact h
  | setSearch v => exact h
  | draft d => exact h

theorem idInv_seed (c1 d1 c2 c3 d3 : String) : IdInv (seedState c1 d1 c2 c3 d3) := by
  constructor
  · intro t htm
    simp only [seedState, List.mem_cons, List.not_mem_nil, or_false] at htm
    rcases htm with rfl | rfl | rfl
    · show (1 : Nat) < 4
      decide
    · show (2 : Nat) < 4
      decide
    · show (3 : Nat) < 4
      decide
  · show ([1, 2, 3] : List Nat).Nodup
    decide

theorem step_nextId_mono {s s' : AppState} (st : Step s s') : s.nextId ≤ s'.nextId := by
  cases st with
  | add now =>
    unfold addTask
    by_cases ht : jsTrim s.draft.title = ""
    · rw [if_pos ht]
    · rw [if_neg ht]
      exact Nat.le_succ _
  | toggle i => exact le_rfl
  | remove i => exact le_rfl
  | clear => exact le_rfl
  | completeEvery => exact le_rfl
  | setFilter f => exact le_rfl
  | setSort k => exact le_rfl
  | setSearch v => exact le_rfl
  | draft d => exact le_rfl

/-- C6: in every state reachable from the seeded store, every task's id is
strictly below the `#nextId` counter and the stored ids are pairwise
distinct, and no operation ever decreases the counter — so an id is never
reused even after the task holding it is removed. -/
theorem id_allocator_invariant_C6 (c1 d1 c2 c3 d3 : String) (s : AppState)
    (hr : Reachable (seedState c1 d1 c2 c3 d3) s) :
    (∀ t ∈ s.tasks, t.id < s.nextId)
      ∧ (s.tasks.map Task.id).Nodup
      ∧ (∀ s', Step s s' → s.nextId ≤ s'.nextId) := by
  have hinv : IdInv s := by
    induction hr with
    | refl => exact idInv_seed c1 d1 c2 c3 d3
    | step hr' st ih => exact idInv_stepPres ih st
  obtain ⟨h1, h2⟩ := hinv
  exact ⟨h1, h2, fun s' st => step_nextId_mono st⟩

theorem id_allocator_invariant_witness_C6 :
    (∀ t ∈ (seedState "a" "b" "c" "d" "e").tasks,
        t.id < (seedState "a" "b" "c" "d" "e").nextId)
      ∧ ((seedState "a" "b" "c" "d" "e").tasks.map Task.id).Nodup
      ∧ (∀ s', Step (seedState "a" "b" "c" "d" "e") s' →
          (seedState "a" "b" "c" "d" "e").nextId ≤ s'.nextId) :=
  id_allocator_invariant_C6 "a" "b" "c" "d" "e" _ Reachable.refl

end Todo
